import Mathlib

/-!
Shallow embedding of `packages/core/scripts/normalize-v8-coverage.ts`.

The source-map consumer (`source-map` npm package) is modelled as a pair of
abstract lookup functions carried inside `SourceContext`; everything else
(offset/line conversion, dual-bias probing with bounded scan fallback,
zero-count widening, the in-place rewrite rule, the directory pass with its
source-map cache) is translated directly from the TypeScript source.
JavaScript numbers are modelled as `Int`; a `source` field holds `""` where
the JavaScript value is null/undefined/empty (all falsy in every check the
source performs on it).  Probe logs record, per probed generated-file offset,
the sequence of lookup biases tried there, mirroring the calls the source
issues to `consumer.originalPositionFor`.
-/

namespace NormalizeV8

/-- Tie-breaking rule for source-map lookups: `SourceMapConsumer.LEAST_UPPER_BOUND`
(`lub`) and `SourceMapConsumer.GREATEST_LOWER_BOUND` (`glb`). -/
inductive Bias where
  | lub
  | glb
deriving DecidableEq

/-- Result of `consumer.originalPositionFor`: `source` is `""` when the lookup
found no mapping (null in JavaScript, falsy either way). -/
structure OrigPos where
  source : String
  line : Option Int
  column : Option Int
deriving DecidableEq

/-- Result of `consumer.generatedPositionFor`; `line`/`column` may be null. -/
structure GenPos where
  line : Option Int
  column : Option Int
deriving DecidableEq

/-- The per-generated-file context built in `normalizeCoverageDir`: line-start
table, source length, and the parsed source-map consumer (abstracted as its two
lookup functions). -/
structure SourceContext where
  lineStarts : Array Int
  sourceLength : Int
  origFor : Int → Int → Bias → OrigPos
  genFor : String → Int → Int → Bias → GenPos

/-- `MappedPosition` from the source (a non-null original position). -/
structure MappedPosition where
  source : String
  line : Int
  column : Int
deriving DecidableEq

/-- `OffsetMapping` from the source. -/
structure OffsetMapping where
  mapped : MappedPosition
  offset : Int
deriving DecidableEq

/-- `CoverageRange` from the source. -/
structure CoverageRange where
  startOffset : Int
  endOffset : Int
  count : Int
deriving DecidableEq

/-- `NormalizerOptions` from the source. -/
structure NormalizerOptions where
  coverageDir : String
  maxScan : Int

/-- Instrumentation: one probe of `originalPositionFor` at a generated-file
offset, with the biases tried there in order. -/
structure ProbeLog where
  offset : Int
  biases : List Bias
deriving DecidableEq

/-- Instrumentation: one call to `consumer.generatedPositionFor`. -/
structure GenQuery where
  source : String
  line : Int
  column : Int
  bias : Bias
deriving DecidableEq

/-- Result of `normalizeRange`: the (possibly rewritten) range, the boolean the
function returns, and the logged consumer queries. -/
structure NormResult where
  range : CoverageRange
  changed : Bool
  probes : List ProbeLog
  genQueries : List GenQuery
deriving DecidableEq

/-- Binary-search loop body of `offsetToLineCol`.  `next` is `Infinity` in the
source when `mid + 1` is out of bounds; that case is the left disjunct of the
guard here.  Fuel bounds the loop; the caller passes enough fuel that the
fallback `(1, 0)` coincides with the loop-exit return of the source. -/
def offsetToLineColGo (lineStarts : Array Int) (offset : Int) :
    Nat → Int → Int → Int × Int
  | 0, _, _ => (1, 0)
  | fuel + 1, low, high =>
    if low ≤ high then
      let mid : Int := (low + high) / 2
      let start := lineStarts.getD mid.toNat 0
      let next := lineStarts.getD (mid + 1).toNat 0
      if start ≤ offset ∧ (¬ mid + 1 < (lineStarts.size : Int) ∨ offset < next) then
        (mid + 1, offset - start)
      else if offset < start then
        offsetToLineColGo lineStarts offset fuel low (mid - 1)
      else
        offsetToLineColGo lineStarts offset fuel (mid + 1) high
    else (1, 0)

/-- `offsetToLineCol` from the source (1-based line, 0-based column). -/
def offsetToLineCol (lineStarts : Array Int) (offset : Int) : Int × Int :=
  offsetToLineColGo lineStarts offset (lineStarts.size + 1) 0 ((lineStarts.size : Int) - 1)

/-- `lineColToOffset` from the source. -/
def lineColToOffset (lineStarts : Array Int) (line column sourceLength : Int) : Int :=
  let lineIndex := max 0 (line - 1)
  let lineStart := lineStarts.getD lineIndex.toNat 0
  let lineEnd :=
    if lineIndex + 1 < (lineStarts.size : Int) then
      lineStarts.getD (lineIndex + 1).toNat 0 - 1
    else sourceLength
  let clampedColumn := max 0 (min column (lineEnd - lineStart))
  lineStart + clampedColumn

/-- Defaulting `mapped.line ?? 1` applied when building an `OffsetMapping`. -/
def origLine (m : OrigPos) : Int := m.line.getD 1

/-- Defaulting `mapped.column ?? 0` applied when building an `OffsetMapping`. -/
def origColumn (m : OrigPos) : Int := m.column.getD 0

/-- One probe of a range start at a generated offset: LEAST_UPPER_BOUND first,
GREATEST_LOWER_BOUND when that yields no source (the body shared by the direct
lookup and every forward-scan step of `findMappedStart`). -/
def probeStart (ctx : SourceContext) (off : Int) :
    Option MappedPosition × List Bias :=
  let pos := offsetToLineCol ctx.lineStarts off
  let m1 := ctx.origFor pos.1 pos.2 Bias.lub
  if m1.source ≠ "" then
    (some ⟨m1.source, origLine m1, origColumn m1⟩, [Bias.lub])
  else
    let m2 := ctx.origFor pos.1 pos.2 Bias.glb
    if m2.source ≠ "" then
      (some ⟨m2.source, origLine m2, origColumn m2⟩, [Bias.lub, Bias.glb])
    else (none, [Bias.lub, Bias.glb])

/-- One probe of a range end at a generated offset: GREATEST_LOWER_BOUND first,
retried with LEAST_UPPER_BOUND when it yields no source or a source different
from `targetSource` (when one is given; `""` models an absent target), accepted
only with a source that matches the target (the body shared by the direct
lookup and every backward-scan step of `findMappedEnd`). -/
def probeEnd (ctx : SourceContext) (targetSource : String) (off : Int) :
    Option MappedPosition × List Bias :=
  let pos := offsetToLineCol ctx.lineStarts off
  let m1 := ctx.origFor pos.1 pos.2 Bias.glb
  if m1.source = "" ∨ (targetSource ≠ "" ∧ m1.source ≠ targetSource) then
    let m2 := ctx.origFor pos.1 pos.2 Bias.lub
    if m2.source ≠ "" ∧ (targetSource = "" ∨ m2.source = targetSource) then
      (some ⟨m2.source, origLine m2, origColumn m2⟩, [Bias.glb, Bias.lub])
    else (none, [Bias.glb, Bias.lub])
  else
    (some ⟨m1.source, origLine m1, origColumn m1⟩, [Bias.glb])

/-- Offsets visited by the forward scan: `startOffset + 1, …, limit`. -/
def ascOffsets (startOffset limit : Int) : List Int :=
  (List.range (limit - startOffset).toNat).map (fun i : Nat => startOffset + 1 + (i : Int))

/-- Offsets visited by the backward scan: `endOffset - 1, …, limit`. -/
def descOffsets (endOffset limit : Int) : List Int :=
  (List.range (endOffset - limit).toNat).map (fun i : Nat => endOffset - 1 - (i : Int))

/-- Scan loop shared by `findMappedStart` and `findMappedEnd`: probe each
offset in order, stopping at the first success, logging every probe. -/
def scanWith (probe : Int → Option MappedPosition × List Bias) :
    List Int → Option OffsetMapping × List ProbeLog
  | [] => (none, [])
  | off :: rest =>
    let pr := probe off
    match pr.1 with
    | some m => (some ⟨m, off⟩, [⟨off, pr.2⟩])
    | none =>
      let r := scanWith probe rest
      (r.1, ⟨off, pr.2⟩ :: r.2)

/-- `findMappedStart` from the source, with its probe log. -/
def findMappedStart (ctx : SourceContext) (startOffset endOffset : Int)
    (options : NormalizerOptions) : Option OffsetMapping × List ProbeLog :=
  let maxScan := min options.maxScan (max 0 (endOffset - startOffset))
  let direct := probeStart ctx startOffset
  match direct.1 with
  | some m => (some ⟨m, startOffset⟩, [⟨startOffset, direct.2⟩])
  | none =>
    let limit := min endOffset (startOffset + maxScan)
    let scanned := scanWith (probeStart ctx) (ascOffsets startOffset limit)
    (scanned.1, ⟨startOffset, direct.2⟩ :: scanned.2)

/-- `findMappedEnd` from the source, with its probe log. -/
def findMappedEnd (ctx : SourceContext) (startOffset endOffset : Int)
    (options : NormalizerOptions) (targetSource : String) :
    Option OffsetMapping × List ProbeLog :=
  let maxScan := min options.maxScan (max 0 (endOffset - startOffset))
  let direct := probeEnd ctx targetSource endOffset
  match direct.1 with
  | some m => (some ⟨m, endOffset⟩, [⟨endOffset, direct.2⟩])
  | none =>
    let limit := max startOffset (endOffset - maxScan)
    let scanned := scanWith (probeEnd ctx targetSource) (descOffsets endOffset limit)
    (scanned.1, ⟨endOffset, direct.2⟩ :: scanned.2)

/-- `Number.MAX_SAFE_INTEGER`, passed as the column of the end-of-line query. -/
def maxSafeInteger : Int := 9007199254740991

/-- JavaScript truthiness of `genStart.line` / `genEnd.line`: non-null and
nonzero. -/
def genLineTruthy : Option Int → Bool
  | none => false
  | some n => n != 0

/-- Final write-back step of `normalizeRange` (source lines 340-346): reject an
empty interval, rewrite only when an offset differs from the original. -/
def finishRange (range : CoverageRange) (s e : Int) (probes : List ProbeLog)
    (gens : List GenQuery) : NormResult :=
  if e ≤ s then ⟨range, false, probes, gens⟩
  else if s ≠ range.startOffset ∨ e ≠ range.endOffset then
    ⟨⟨s, e, range.count⟩, true, probes, gens⟩
  else ⟨range, false, probes, gens⟩

/-- The `genStart` query of the zero-count widening:
`generatedPositionFor({source, line: startMapping.mapped.line, column: 0,
bias: LEAST_UPPER_BOUND})`. -/
def genStartOf (ctx : SourceContext) (startMapping : OffsetMapping) : GenPos :=
  ctx.genFor startMapping.mapped.source startMapping.mapped.line 0 Bias.lub

/-- The `genEnd` query of the zero-count widening:
`generatedPositionFor({source, line: endMapping.mapped.line, column:
MAX_SAFE_INTEGER, bias: GREATEST_LOWER_BOUND})`.  The source reads
`endMapping.mapped.line ?? startMapping.mapped.line`; `endMapping.mapped.line`
was already defaulted with `?? 1` when the `OffsetMapping` was built, so the
second fallback can never fire and the line is used directly. -/
def genEndOf (ctx : SourceContext) (startMapping endMapping : OffsetMapping) : GenPos :=
  ctx.genFor startMapping.mapped.source endMapping.mapped.line maxSafeInteger Bias.glb

/-- The `expandedStart` of the zero-count widening. -/
def expandedStartOf (ctx : SourceContext) (startMapping : OffsetMapping) : Int :=
  lineColToOffset ctx.lineStarts ((genStartOf ctx startMapping).line.getD 0)
    ((genStartOf ctx startMapping).column.getD 0) ctx.sourceLength

/-- The `expandedEnd` of the zero-count widening. -/
def expandedEndOf (ctx : SourceContext) (startMapping endMapping : OffsetMapping) : Int :=
  lineColToOffset ctx.lineStarts ((genEndOf ctx startMapping endMapping).line.getD 0)
    ((genEndOf ctx startMapping endMapping).column.getD 0) ctx.sourceLength

/-- The guard `if (genStart.line && genEnd.line)` of the zero-count widening. -/
def widenTruthy (ctx : SourceContext) (startMapping endMapping : OffsetMapping) : Bool :=
  genLineTruthy (genStartOf ctx startMapping).line &&
    genLineTruthy (genEndOf ctx startMapping endMapping).line

/-- Body of `normalizeRange` once both the start and the end mapping were
found, including the zero-count full-line widening (source lines 306-346). -/
def normalizeFound (range : CoverageRange) (ctx : SourceContext)
    (startMapping endMapping : OffsetMapping) (probes : List ProbeLog) : NormResult :=
  let startOffset := startMapping.offset
  let endOffset := endMapping.offset
  if range.count = 0 then
    let gens : List GenQuery :=
      [⟨startMapping.mapped.source, startMapping.mapped.line, 0, Bias.lub⟩,
       ⟨startMapping.mapped.source, endMapping.mapped.line, maxSafeInteger, Bias.glb⟩]
    if widenTruthy ctx startMapping endMapping then
      finishRange range (min startOffset (expandedStartOf ctx startMapping))
        (max endOffset (expandedEndOf ctx startMapping endMapping)) probes gens
    else
      finishRange range startOffset endOffset probes gens
  else
    finishRange range startOffset endOffset probes []

/-- `normalizeRange` from the source. -/
def normalizeRange (range : CoverageRange) (ctx : SourceContext)
    (options : NormalizerOptions) : NormResult :=
  if range.endOffset ≤ range.startOffset then ⟨range, false, [], []⟩
  else
    let fs := findMappedStart ctx range.startOffset range.endOffset options
    match fs.1 with
    | none => ⟨range, false, fs.2, []⟩
    | some startMapping =>
      let fe := findMappedEnd ctx range.startOffset range.endOffset options
        startMapping.mapped.source
      match fe.1 with
      | none => ⟨range, false, fs.2 ++ fe.2, []⟩
      | some endMapping => normalizeFound range ctx startMapping endMapping (fs.2 ++ fe.2)

/-- Scan budget resolved by `normalizeV8Coverage`:
`Number(process.env.V8_COVERAGE_SCAN_LIMIT ?? 20000)`, with the environment
variable modelled as an already-parsed optional integer. -/
def normalizeV8CoverageMaxScan (envScanLimit : Option Int) : Int :=
  envScanLimit.getD 20000

/-- A function block of a coverage entry (`functions[i]` in the JSON). -/
structure FuncBlock where
  ranges : Option (List CoverageRange)
deriving DecidableEq

/-- `CoverageEntry` from the source; `url = ""` models an absent/empty url
(both falsy in the `entry.url ? … : null` guard). -/
structure CoverageEntry where
  url : String
  functions : Option (List FuncBlock)
deriving DecidableEq

/-- `CoverageFile` from the source; `result = none` models a missing or
non-array `result` field. -/
structure CoverageFileData where
  result : Option (List CoverageEntry)
deriving DecidableEq

/-- External environment of the directory pass: `url.fileURLToPath` (which may
throw, hence `Option`), `path.isAbsolute`, `readSourceMap` (inline-base64 or
sidecar lookup, `none` when the generated file has no discoverable map), and
the construction of a `SourceContext` from a generated file path plus its raw
source-map payload (file read, line-start table, `new SourceMapConsumer`). -/
structure DirEnv where
  fileURLToPath : String → Option String
  isAbsolute : String → Bool
  readSourceMap : String → Option String
  mkContext : String → String → SourceContext

/-- The `s.startsWith(pat)` test, carried out over the character lists so that
it evaluates by kernel reduction. -/
def strStartsWith (s pat : String) : Bool :=
  s.toList.take pat.toList.length == pat.toList

/-- `toFilePath` from the source. -/
def toFilePath (env : DirEnv) (urlOrPath : String) : Option String :=
  if urlOrPath = "" then none
  else if strStartsWith urlOrPath "node:" then none
  else if strStartsWith urlOrPath "file:" then env.fileURLToPath urlOrPath
  else if env.isAbsolute urlOrPath then some urlOrPath
  else none

/-- Lookup in the `sourceCache` map (outer `some` = key present, inner value
`none` = cached "no source map" sentinel). -/
def cacheGet : List (String × Option SourceContext) → String →
    Option (Option SourceContext)
  | [], _ => none
  | (k, v) :: rest, p => if k = p then some v else cacheGet rest p

/-- State threaded through one normalization pass: the `sourceCache` map plus
the instrumented list of paths handed to `readSourceMap`, in call order. -/
structure PassState where
  cache : List (String × Option SourceContext)
  mapReads : List String

/-- The `sourceCache` of a fresh pass, with an empty read log. -/
def initialPassState : PassState := ⟨[], []⟩

/-- The guard `entry.url ? toFilePath(entry.url) : null`. -/
def entryJsPath (env : DirEnv) (entry : CoverageEntry) : Option String :=
  if entry.url = "" then none else toFilePath env entry.url

/-- Cache consultation of `normalizeCoverageDir` (source lines 378-392): on a
miss, call `readSourceMap`; cache `none` when no map was found, otherwise
build and cache the context. -/
def resolveContext (env : DirEnv) (st : PassState) (jsPath : String) :
    Option SourceContext × PassState :=
  match cacheGet st.cache jsPath with
  | some c => (c, st)
  | none =>
    match env.readSourceMap jsPath with
    | none => (none, ⟨(jsPath, none) :: st.cache, st.mapReads ++ [jsPath]⟩)
    | some payload =>
      let ctx := env.mkContext jsPath payload
      (some ctx, ⟨(jsPath, some ctx) :: st.cache, st.mapReads ++ [jsPath]⟩)

/-- Per-function-block loop of `normalizeCoverageDir` (`if (!block?.ranges)
continue` plus the range loop), returning the rewritten block and whether any
range changed. -/
def processBlock (ctx : SourceContext) (options : NormalizerOptions)
    (block : FuncBlock) : FuncBlock × Bool :=
  match block.ranges with
  | none => (block, false)
  | some rs =>
    let outs := rs.map (fun r => normalizeRange r ctx options)
    (⟨some (outs.map NormResult.range)⟩, outs.any NormResult.changed)

/-- Per-entry loop body of `normalizeCoverageDir` (source lines 375-403). -/
def processEntry (env : DirEnv) (options : NormalizerOptions)
    (st : PassState) (entry : CoverageEntry) : CoverageEntry × Bool × PassState :=
  match entryJsPath env entry with
  | none => (entry, false, st)
  | some jsPath =>
    let rc := resolveContext env st jsPath
    match rc.1 with
    | none => (entry, false, rc.2)
    | some ctx =>
      match entry.functions with
      | none => (entry, false, rc.2)
      | some blocks =>
        let outs := blocks.map (processBlock ctx options)
        ({ entry with functions := some (outs.map Prod.fst) },
         outs.any Prod.snd, rc.2)

/-- Fold of `processEntry` over the entries of one coverage file, accumulating
the `updated` flag and threading the cache state. -/
def processEntries (env : DirEnv) (options : NormalizerOptions) :
    PassState → List CoverageEntry → List CoverageEntry × Bool × PassState
  | st, [] => ([], false, st)
  | st, e :: rest =>
    let out := processEntry env options st e
    let outs := processEntries env options out.2.2 rest
    (out.1 :: outs.1, out.2.1 || outs.2.1, outs.2.2)

/-- Per-file body of `normalizeCoverageDir`: skip files whose `result` is not
an array, otherwise process every entry. -/
def processFileData (env : DirEnv) (options : NormalizerOptions)
    (st : PassState) (data : CoverageFileData) : CoverageFileData × Bool × PassState :=
  match data.result with
  | none => (data, false, st)
  | some entries =>
    let outs := processEntries env options st entries
    (⟨some outs.1⟩, outs.2.1, outs.2.2)

/-- Loop over the collected coverage JSON files, returning the write-backs
(`fs.writeFileSync(file, JSON.stringify(data))` fires only when `updated`). -/
def processFiles (env : DirEnv) (options : NormalizerOptions) :
    PassState → List (String × CoverageFileData) →
    List (String × CoverageFileData) × PassState
  | st, [] => ([], st)
  | st, (p, data) :: rest =>
    let out := processFileData env options st data
    let outs := processFiles env options out.2.2 rest
    ((if out.2.1 then [(p, out.1)] else []) ++ outs.1, outs.2)

mutual
/-- Node of the coverage directory tree; `.json` files carry their
already-parsed contents. -/
inductive FsNode where
  | file (name : String) (data : CoverageFileData)
  | dir (name : String) (children : FsForest)
/-- Listing of one directory (`fs.readdirSync`), in traversal order. -/
inductive FsForest where
  | nil
  | cons (node : FsNode) (rest : FsForest)
end

/-- The `entry.name.endsWith(".json")` test, carried out over the character
list so that it evaluates by kernel reduction. -/
def endsWithJson (name : String) : Bool :=
  name.toList.reverse.take 5 == ['n', 'o', 's', 'j', '.']

mutual
/-- The `walk` of `normalizeCoverageDir`: collect `*.json` files, skipping
subdirectories named `.v8-tmp` or `merged`. -/
def collectJson (dirPath : String) : FsNode → List (String × CoverageFileData)
  | .file name data =>
    if endsWithJson name then [(dirPath ++ "/" ++ name, data)] else []
  | .dir name children =>
    if name = ".v8-tmp" ∨ name = "merged" then []
    else collectJsonForest (dirPath ++ "/" ++ name) children

/-- Collection step of `walk` over the listed entries of one directory. -/
def collectJsonForest (dirPath : String) : FsForest → List (String × CoverageFileData)
  | .nil => []
  | .cons n rest => collectJson dirPath n ++ collectJsonForest dirPath rest
end

/-- `normalizeCoverageDir` from the source over a modelled file system:
`root = none` models a missing coverage directory (`fs.existsSync` false),
`some children` the directory listing of `options.coverageDir`.  Returns the
files written back together with the `readSourceMap` call log. -/
def normalizeCoverageDir (env : DirEnv) (options : NormalizerOptions)
    (root : Option FsForest) :
    List (String × CoverageFileData) × List String :=
  match root with
  | none => ([], [])
  | some children =>
    let jsonFiles := collectJsonForest options.coverageDir children
    if jsonFiles = [] then ([], [])
    else
      let out := processFiles env options initialPassState jsonFiles
      (out.1, out.2.mapReads)

/-- Shape of a function block with the range offsets erased: presence of the
`ranges` array and the `count` of each range, in order. -/
def blockShape (b : FuncBlock) : Option (List Int) :=
  b.ranges.map (fun rs => rs.map CoverageRange.count)

/-- Shape of a coverage entry with the range offsets erased: its url and the
per-block shapes, in order. -/
def entryShape (e : CoverageEntry) : String × Option (List (Option (List Int))) :=
  (e.url, e.functions.map (fun bs => bs.map blockShape))

/-- Source found by a LEAST_UPPER_BOUND lookup at a generated offset. -/
def lubSourceAt (ctx : SourceContext) (off : Int) : String :=
  (ctx.origFor (offsetToLineCol ctx.lineStarts off).1
    (offsetToLineCol ctx.lineStarts off).2 Bias.lub).source

/-- Source found by a GREATEST_LOWER_BOUND lookup at a generated offset. -/
def glbSourceAt (ctx : SourceContext) (off : Int) : String :=
  (ctx.origFor (offsetToLineCol ctx.lineStarts off).1
    (offsetToLineCol ctx.lineStarts off).2 Bias.glb).source

/-- Acceptance condition of the first (GREATEST_LOWER_BOUND) end lookup at an
offset: it has a source and the source matches the target when one is given. -/
def endDirectAccept (ctx : SourceContext) (targetSource : String) (off : Int) : Prop :=
  glbSourceAt ctx off ≠ "" ∧ (targetSource = "" ∨ glbSourceAt ctx off = targetSource)

instance (ctx : SourceContext) (targetSource : String) (off : Int) :
    Decidable (endDirectAccept ctx targetSource off) := by
  unfold endDirectAccept; infer_instance

/-- Consistency of the `sourceCache` with the environment: every cached value
is exactly what `readSourceMap` plus context construction would produce. -/
def cacheConsistent (env : DirEnv) (cache : List (String × Option SourceContext)) : Prop :=
  ∀ p c, cacheGet cache p = some c →
    c = (env.readSourceMap p).map (fun payload => env.mkContext p payload)

/-- Invariant of the read log: no path was handed to `readSourceMap` twice,
and every read path has a cached result. -/
def readsInv (st : PassState) : Prop :=
  st.mapReads.Nodup ∧ ∀ p ∈ st.mapReads, cacheGet st.cache p ≠ none

/-- Concrete single-line source context used to evaluate the theorems: every
original lookup lands in `a.ts` line 1, and the reverse lookup maps column 0
to generated column 0 and the end-of-line query to generated column 50. -/
def ctxW : SourceContext where
  lineStarts := #[0]
  sourceLength := 100
  origFor := fun _ _ _ => ⟨"a.ts", some 1, some 0⟩
  genFor := fun _ _ column _ =>
    if column = 0 then ⟨some 1, some 0⟩ else ⟨some 1, some 50⟩

/-- Concrete source context with no mappings at all. -/
def ctxNoMap : SourceContext where
  lineStarts := #[0]
  sourceLength := 100
  origFor := fun _ _ _ => ⟨"", none, none⟩
  genFor := fun _ _ _ _ => ⟨none, none⟩

/-- Concrete normalizer options with the default scan budget. -/
def optsW : NormalizerOptions := ⟨"cov", 20000⟩

/-- Concrete normalizer options with a scan budget of zero. -/
def optsZero : NormalizerOptions := ⟨"cov", 0⟩

/-- Concrete uncovered (count 0) range. -/
def rW : CoverageRange := ⟨0, 10, 0⟩

/-- Concrete degenerate range (`endOffset <= startOffset`). -/
def rDegen : CoverageRange := ⟨5, 5, 1⟩

/-- Concrete covered range. -/
def rCov : CoverageRange := ⟨2, 9, 3⟩

/-- Concrete directory environment whose generated files carry no source map. -/
def envW : DirEnv where
  fileURLToPath := fun _ => none
  isAbsolute := fun _ => true
  readSourceMap := fun _ => none
  mkContext := fun _ _ => ctxW

/-- Concrete coverage entry pointing at an absolute generated-file path. -/
def entryW : CoverageEntry := ⟨"/x.js", some []⟩

/-- Concrete parsed coverage file with an empty result array. -/
def dataW : CoverageFileData := ⟨some []⟩

/-- Concrete directory listing holding no `.json` file outside the excluded
subdirectories. -/
def childrenW : FsForest :=
  .cons (.dir ".v8-tmp" (.cons (.file "a.json" dataW) .nil))
    (.cons (.file "notes.txt" dataW) .nil)

theorem finishRange_changed_false {r : CoverageRange} {s e : Int}
    {p : List ProbeLog} {g : List GenQuery}
    (h : (finishRange r s e p g).changed = false) :
    (finishRange r s e p g).range = r := by
  unfold finishRange at h ⊢
  by_cases h1 : e ≤ s
  · rw [if_pos h1]
  · rw [if_neg h1] at h ⊢
    by_cases h2 : s ≠ r.startOffset ∨ e ≠ r.endOffset
    · rw [if_pos h2] at h
      simp at h
    · rw [if_neg h2]

theorem finishRange_changed_true {r : CoverageRange} {s e : Int}
    {p : List ProbeLog} {g : List GenQuery}
    (h : (finishRange r s e p g).changed = true) :
    (finishRange r s e p g).range = ⟨s, e, r.count⟩ ∧ s < e ∧
      (s ≠ r.startOffset ∨ e ≠ r.endOffset) := by
  unfold finishRange at h ⊢
  by_cases h1 : e ≤ s
  · rw [if_pos h1] at h
    simp at h
  · rw [if_neg h1] at h ⊢
    by_cases h2 : s ≠ r.startOffset ∨ e ≠ r.endOffset
    · rw [if_pos h2]
      exact ⟨rfl, by omega, h2⟩
    · rw [if_neg h2] at h
      simp at h

theorem finishRange_count (r : CoverageRange) (s e : Int)
    (p : List ProbeLog) (g : List GenQuery) :
    (finishRange r s e p g).range.count = r.count := by
  unfold finishRange
  split
  · rfl
  · split <;> rfl

theorem finishRange_noop {r : CoverageRange} {p : List ProbeLog} {g : List GenQuery}
    (h : ¬ r.endOffset ≤ r.startOffset) :
    finishRange r r.startOffset r.endOffset p g = ⟨r, false, p, g⟩ := by
  unfold finishRange
  rw [if_neg h, if_neg (by simp)]

theorem normalizeRange_degen {r : CoverageRange} {ctx : SourceContext}
    {o : NormalizerOptions} (h : r.endOffset ≤ r.startOffset) :
    normalizeRange r ctx o = ⟨r, false, [], []⟩ := by
  unfold normalizeRange
  rw [if_pos h]

theorem normalizeRange_noStart {r : CoverageRange} {ctx : SourceContext}
    {o : NormalizerOptions} (h : ¬ r.endOffset ≤ r.startOffset)
    (hs : (findMappedStart ctx r.startOffset r.endOffset o).1 = none) :
    normalizeRange r ctx o =
      ⟨r, false, (findMappedStart ctx r.startOffset r.endOffset o).2, []⟩ := by
  simp only [normalizeRange, if_neg h, hs]

theorem normalizeRange_noEnd {r : CoverageRange} {ctx : SourceContext}
    {o : NormalizerOptions} {sm : OffsetMapping} (h : ¬ r.endOffset ≤ r.startOffset)
    (hs : (findMappedStart ctx r.startOffset r.endOffset o).1 = some sm)
    (he : (findMappedEnd ctx r.startOffset r.endOffset o sm.mapped.source).1 = none) :
    normalizeRange r ctx o =
      ⟨r, false, (findMappedStart ctx r.startOffset r.endOffset o).2 ++
        (findMappedEnd ctx r.startOffset r.endOffset o sm.mapped.source).2, []⟩ := by
  simp only [normalizeRange, if_neg h, hs, he]

theorem normalizeRange_found {r : CoverageRange} {ctx : SourceContext}
    {o : NormalizerOptions} {sm em : OffsetMapping} (h : ¬ r.endOffset ≤ r.startOffset)
    (hs : (findMappedStart ctx r.startOffset r.endOffset o).1 = some sm)
    (he : (findMappedEnd ctx r.startOffset r.endOffset o sm.mapped.source).1 = some em) :
    normalizeRange r ctx o = normalizeFound r ctx sm em
      ((findMappedStart ctx r.startOffset r.endOffset o).2 ++
       (findMappedEnd ctx r.startOffset r.endOffset o sm.mapped.source).2) := by
  simp only [normalizeRange, if_neg h, hs, he]

theorem normalizeFound_eq_finish (r : CoverageRange) (ctx : SourceContext)
    (sm em : OffsetMapping) (p : List ProbeLog) :
    ∃ S E g, normalizeFound r ctx sm em p = finishRange r S E p g ∧
      S ≤ sm.offset ∧ em.offset ≤ E ∧
      (¬ r.count = 0 → S = sm.offset ∧ E = em.offset ∧ g = []) := by
  unfold normalizeFound
  by_cases hc : r.count = 0
  · simp only [if_pos hc]
    by_cases ht : widenTruthy ctx sm em = true
    · simp only [if_pos ht]
      exact ⟨_, _, _, rfl, min_le_left _ _, le_max_left _ _, fun hn => absurd hc hn⟩
    · simp only [if_neg ht]
      exact ⟨_, _, _, rfl, le_refl _, le_refl _, fun hn => absurd hc hn⟩
  · simp only [if_neg hc]
    exact ⟨_, _, _, rfl, le_refl _, le_refl _, fun _ => ⟨rfl, rfl, rfl⟩⟩

theorem normalizeRange_changed_false {r : CoverageRange} {ctx : SourceContext}
    {o : NormalizerOptions} (h : (normalizeRange r ctx o).changed = false) :
    (normalizeRange r ctx o).range = r := by
  by_cases hdeg : r.endOffset ≤ r.startOffset
  · rw [normalizeRange_degen hdeg]
  · cases hs : (findMappedStart ctx r.startOffset r.endOffset o).1 with
    | none => rw [normalizeRange_noStart hdeg hs]
    | some sm =>
      cases he : (findMappedEnd ctx r.startOffset r.endOffset o sm.mapped.source).1 with
      | none => rw [normalizeRange_noEnd hdeg hs he]
      | some em =>
        rw [normalizeRange_found hdeg hs he] at h ⊢
        obtain ⟨S, E, g, heq, -⟩ := normalizeFound_eq_finish r ctx sm em
          ((findMappedStart ctx r.startOffset r.endOffset o).2 ++
           (findMappedEnd ctx r.startOffset r.endOffset o sm.mapped.source).2)
        rw [heq] at h ⊢
        exact finishRange_changed_false h

theorem normalizeRange_count (r : CoverageRange) (ctx : SourceContext)
    (o : NormalizerOptions) : (normalizeRange r ctx o).range.count = r.count := by
  by_cases hdeg : r.endOffset ≤ r.startOffset
  · rw [normalizeRange_degen hdeg]
  · cases hs : (findMappedStart ctx r.startOffset r.endOffset o).1 with
    | none => rw [normalizeRange_noStart hdeg hs]
    | some sm =>
      cases he : (findMappedEnd ctx r.startOffset r.endOffset o sm.mapped.source).1 with
      | none => rw [normalizeRange_noEnd hdeg hs he]
      | some em =>
        rw [normalizeRange_found hdeg hs he]
        obtain ⟨S, E, g, heq, -⟩ := normalizeFound_eq_finish r ctx sm em
          ((findMappedStart ctx r.startOffset r.endOffset o).2 ++
           (findMappedEnd ctx r.startOffset r.endOffset o sm.mapped.source).2)
        rw [heq]
        exact finishRange_count _ _ _ _ _

theorem processBlock_shape (ctx : SourceContext) (o : NormalizerOptions)
    (b : FuncBlock) : blockShape (processBlock ctx o b).1 = blockShape b := by
  cases hb : b.ranges with
  | none => simp only [processBlock, hb]
  | some rs =>
    simp only [processBlock, hb, blockShape, Option.map_some', List.map_map,
      Option.some.injEq]
    exact List.map_congr_left fun r _ => by
      simpa using normalizeRange_count r ctx o

theorem processEntry_shape (env : DirEnv) (o : NormalizerOptions)
    (st : PassState) (entry : CoverageEntry) :
    entryShape (processEntry env o st entry).1 = entryShape entry := by
  cases hjs : entryJsPath env entry with
  | none => simp only [processEntry, hjs]
  | some jsPath =>
    cases hc : (resolveContext env st jsPath).1 with
    | none => simp only [processEntry, hjs, hc]
    | some ctx =>
      cases hf : entry.functions with
      | none => simp only [processEntry, hjs, hc, hf]
      | some blocks =>
        simp only [processEntry, hjs, hc, hf, entryShape, Option.map_some',
          List.map_map, Prod.mk.injEq, Option.some.injEq, true_and]
        exact List.map_congr_left fun b _ => by
          simpa using processBlock_shape ctx o b

/-- C6: for every range with `endOffset <= startOffset`, `normalizeRange`
returns false without performing any source-map lookup (its probe and query
logs are empty) and leaves the range exactly as it was. -/
theorem c6_degenerate_noop (r : CoverageRange) (ctx : SourceContext)
    (o : NormalizerOptions) (h : r.endOffset ≤ r.startOffset) :
    normalizeRange r ctx o = ⟨r, false, [], []⟩ :=
  normalizeRange_degen h

theorem c6_degenerate_noop_witness :
    normalizeRange rDegen ctxW optsW = ⟨rDegen, false, [], []⟩ :=
  c6_degenerate_noop rDegen ctxW optsW (by decide)

/-- C10: when the coverage directory does not exist, or exists but holds no
`.json` file outside the excluded `.v8-tmp` and `merged` subdirectories,
`normalizeCoverageDir` returns with no file written and no source map read. -/
theorem c10_missing_or_empty_dir (env : DirEnv) (o : NormalizerOptions) :
    normalizeCoverageDir env o none = ([], []) ∧
    ∀ children, collectJsonForest o.coverageDir children = [] →
      normalizeCoverageDir env o (some children) = ([], []) := by
  refine ⟨rfl, fun children h => ?_⟩
  unfold normalizeCoverageDir
  simp [h]

theorem c10_missing_or_empty_dir_witness :
    normalizeCoverageDir envW optsW (some childrenW) = ([], []) :=
  (c10_missing_or_empty_dir envW optsW).2 childrenW (by decide)

/-- C9: `normalizeRange` can change only the two offset fields — the count of
every range is preserved, and a processed entry keeps its url, its function
blocks, and its ranges in number and order (witnessed by the offset-erased
shape being preserved). -/
theorem c9_only_offsets_mutated (r : CoverageRange) (ctx : SourceContext)
    (o : NormalizerOptions) (env : DirEnv) (st : PassState) (entry : CoverageEntry) :
    (normalizeRange r ctx o).range.count = r.count ∧
    entryShape (processEntry env o st entry).1 = entryShape entry :=
  ⟨normalizeRange_count r ctx o, processEntry_shape env o st entry⟩

/-- C1: for a zero-count range that `normalizeRange` rewrites, the final
interval contains the interval produced by the bias/scan lookups: the
expansion step only widens (`Math.min` on the start, `Math.max` on the end). -/
theorem c1_zero_count_widening (r : CoverageRange) (ctx : SourceContext)
    (o : NormalizerOptions) (sm em : OffsetMapping)
    (_hc : r.count = 0)
    (hs : (findMappedStart ctx r.startOffset r.endOffset o).1 = some sm)
    (he : (findMappedEnd ctx r.startOffset r.endOffset o sm.mapped.source).1 = some em)
    (hch : (normalizeRange r ctx o).changed = true) :
    (normalizeRange r ctx o).range.startOffset ≤ sm.offset ∧
    em.offset ≤ (normalizeRange r ctx o).range.endOffset := by
  by_cases hdeg : r.endOffset ≤ r.startOffset
  · rw [normalizeRange_degen hdeg] at hch
    simp at hch
  · rw [normalizeRange_found hdeg hs he] at hch ⊢
    obtain ⟨S, E, g, heq, hS, hE, -⟩ := normalizeFound_eq_finish r ctx sm em
      ((findMappedStart ctx r.startOffset r.endOffset o).2 ++
       (findMappedEnd ctx r.startOffset r.endOffset o sm.mapped.source).2)
    rw [heq] at hch ⊢
    obtain ⟨hr, -, -⟩ := finishRange_changed_true hch
    rw [hr]
    exact ⟨hS, hE⟩

theorem probeStart_some_src {ctx : SourceContext} {off : Int} {m : MappedPosition}
    (h : (probeStart ctx off).1 = some m) : m.source ≠ "" := by
  unfold probeStart at h
  by_cases h1 : (ctx.origFor (offsetToLineCol ctx.lineStarts off).1
      (offsetToLineCol ctx.lineStarts off).2 Bias.lub).source ≠ ""
  · rw [if_pos h1] at h
    cases h
    exact h1
  · rw [if_neg h1] at h
    by_cases h2 : (ctx.origFor (offsetToLineCol ctx.lineStarts off).1
        (offsetToLineCol ctx.lineStarts off).2 Bias.glb).source ≠ ""
    · rw [if_pos h2] at h
      cases h
      exact h2
    · rw [if_neg h2] at h
      cases h

theorem probeEnd_accept {ctx : SourceContext} {ts : String} {off : Int}
    {m : MappedPosition} (h : (probeEnd ctx ts off).1 = some m) :
    m.source ≠ "" ∧ (ts = "" ∨ m.source = ts) := by
  unfold probeEnd at h
  by_cases h1 : (ctx.origFor (offsetToLineCol ctx.lineStarts off).1
      (offsetToLineCol ctx.lineStarts off).2 Bias.glb).source = "" ∨
      (ts ≠ "" ∧ (ctx.origFor (offsetToLineCol ctx.lineStarts off).1
        (offsetToLineCol ctx.lineStarts off).2 Bias.glb).source ≠ ts)
  · rw [if_pos h1] at h
    by_cases h2 : (ctx.origFor (offsetToLineCol ctx.lineStarts off).1
        (offsetToLineCol ctx.lineStarts off).2 Bias.lub).source ≠ "" ∧
        (ts = "" ∨ (ctx.origFor (offsetToLineCol ctx.lineStarts off).1
          (offsetToLineCol ctx.lineStarts off).2 Bias.lub).source = ts)
    · rw [if_pos h2] at h
      cases h
      exact h2
    · rw [if_neg h2] at h
      cases h
  · rw [if_neg h1] at h
    cases h
    push_neg at h1
    exact ⟨h1.1, by tauto⟩

theorem scanWith_found {probe : Int → Option MappedPosition × List Bias} :
    ∀ {l : List Int} {mp : OffsetMapping},
    (scanWith probe l).1 = some mp → (probe mp.offset).1 = some mp.mapped := by
  intro l
  induction l with
  | nil => intro mp h; cases h
  | cons off rest ih =>
    intro mp h
    unfold scanWith at h
    cases hp : (probe off).1 with
    | some m =>
      simp only [hp] at h
      cases h
      exact hp
    | none =>
      simp only [hp] at h
      exact ih h

theorem findMappedStart_found {ctx : SourceContext} {s e : Int}
    {o : NormalizerOptions} {sm : OffsetMapping}
    (h : (findMappedStart ctx s e o).1 = some sm) :
    (probeStart ctx sm.offset).1 = some sm.mapped := by
  unfold findMappedStart at h
  cases hd : (probeStart ctx s).1 with
  | some m =>
    simp only [hd] at h
    cases h
    exact hd
  | none =>
    simp only [hd] at h
    exact scanWith_found h

theorem findMappedEnd_found {ctx : SourceContext} {s e : Int}
    {o : NormalizerOptions} {ts : String} {em : OffsetMapping}
    (h : (findMappedEnd ctx s e o ts).1 = some em) :
    (probeEnd ctx ts em.offset).1 = some em.mapped := by
  unfold findMappedEnd at h
  cases hd : (probeEnd ctx ts e).1 with
  | some m =>
    simp only [hd] at h
    cases h
    exact hd
  | none =>
    simp only [hd] at h
    exact scanWith_found h

theorem scanWith_biases {probe : Int → Option MappedPosition × List Bias} :
    ∀ {l : List Int}, ∀ pb ∈ (scanWith probe l).2, pb.biases = (probe pb.offset).2 := by
  intro l
  induction l with
  | nil => intro pb h; cases h
  | cons off rest ih =>
    intro pb h
    unfold scanWith at h
    cases hp : (probe off).1 with
    | some m =>
      simp only [hp, List.mem_singleton] at h
      subst h
      rfl
    | none =>
      simp only [hp, List.mem_cons] at h
      rcases h with h | h
      · subst h
        rfl
      · exact ih pb h

theorem findMappedStart_biases {ctx : SourceContext} {s e : Int}
    {o : NormalizerOptions} :
    ∀ pb ∈ (findMappedStart ctx s e o).2, pb.biases = (probeStart ctx pb.offset).2 := by
  intro pb h
  unfold findMappedStart at h
  cases hd : (probeStart ctx s).1 with
  | some m =>
    simp only [hd, List.mem_singleton] at h
    subst h
    rfl
  | none =>
    simp only [hd, List.mem_cons] at h
    rcases h with h | h
    · subst h
      rfl
    · exact scanWith_biases pb h

theorem findMappedEnd_biases {ctx : SourceContext} {s e : Int}
    {o : NormalizerOptions} {ts : String} :
    ∀ pb ∈ (findMappedEnd ctx s e o ts).2, pb.biases = (probeEnd ctx ts pb.offset).2 := by
  intro pb h
  unfold findMappedEnd at h
  cases hd : (probeEnd ctx ts e).1 with
  | some m =>
    simp only [hd, List.mem_singleton] at h
    subst h
    rfl
  | none =>
    simp only [hd, List.mem_cons] at h
    rcases h with h | h
    · subst h
      rfl
    · exact scanWith_biases pb h

theorem probeStart_biases_iff (ctx : SourceContext) (off : Int) :
    (probeStart ctx off).2 = [Bias.lub] ↔ lubSourceAt ctx off ≠ "" := by
  unfold probeStart lubSourceAt
  by_cases h1 : (ctx.origFor (offsetToLineCol ctx.lineStarts off).1
      (offsetToLineCol ctx.lineStarts off).2 Bias.lub).source ≠ ""
  · rw [if_pos h1]
    simpa using h1
  · rw [if_neg h1]
    by_cases h2 : (ctx.origFor (offsetToLineCol ctx.lineStarts off).1
        (offsetToLineCol ctx.lineStarts off).2 Bias.glb).source ≠ ""
    · rw [if_pos h2]
      simpa using h1
    · rw [if_neg h2]
      simpa using h1

theorem probeStart_biases_cases (ctx : SourceContext) (off : Int) :
    (probeStart ctx off).2 = [Bias.lub] ∨ (probeStart ctx off).2 = [Bias.lub, Bias.glb] := by
  unfold probeStart
  by_cases h1 : (ctx.origFor (offsetToLineCol ctx.lineStarts off).1
      (offsetToLineCol ctx.lineStarts off).2 Bias.lub).source ≠ ""
  · rw [if_pos h1]
    exact Or.inl rfl
  · rw [if_neg h1]
    by_cases h2 : (ctx.origFor (offsetToLineCol ctx.lineStarts off).1
        (offsetToLineCol ctx.lineStarts off).2 Bias.glb).source ≠ ""
    · rw [if_pos h2]
      exact Or.inr rfl
    · rw [if_neg h2]
      exact Or.inr rfl

theorem probeEnd_biases_iff (ctx : SourceContext) (ts : String) (off : Int) :
    (probeEnd ctx ts off).2 = [Bias.glb] ↔ endDirectAccept ctx ts off := by
  unfold probeEnd endDirectAccept glbSourceAt
  by_cases h1 : (ctx.origFor (offsetToLineCol ctx.lineStarts off).1
      (offsetToLineCol ctx.lineStarts off).2 Bias.glb).source = "" ∨
      (ts ≠ "" ∧ (ctx.origFor (offsetToLineCol ctx.lineStarts off).1
        (offsetToLineCol ctx.lineStarts off).2 Bias.glb).source ≠ ts)
  · rw [if_pos h1]
    by_cases h2 : (ctx.origFor (offsetToLineCol ctx.lineStarts off).1
        (offsetToLineCol ctx.lineStarts off).2 Bias.lub).source ≠ "" ∧
        (ts = "" ∨ (ctx.origFor (offsetToLineCol ctx.lineStarts off).1
          (offsetToLineCol ctx.lineStarts off).2 Bias.lub).source = ts)
    · rw [if_pos h2]
      constructor
      · intro h; cases h
      · intro h; exact absurd h (by tauto)
    · rw [if_neg h2]
      constructor
      · intro h; cases h
      · intro h; exact absurd h (by tauto)
  · rw [if_neg h1]
    push_neg at h1
    constructor
    · intro _; exact ⟨h1.1, by tauto⟩
    · intro _; rfl

theorem probeEnd_biases_cases (ctx : SourceContext) (ts : String) (off : Int) :
    (probeEnd ctx ts off).2 = [Bias.glb] ∨ (probeEnd ctx ts off).2 = [Bias.glb, Bias.lub] := by
  unfold probeEnd
  by_cases h1 : (ctx.origFor (offsetToLineCol ctx.lineStarts off).1
      (offsetToLineCol ctx.lineStarts off).2 Bias.glb).source = "" ∨
      (ts ≠ "" ∧ (ctx.origFor (offsetToLineCol ctx.lineStarts off).1
        (offsetToLineCol ctx.lineStarts off).2 Bias.glb).source ≠ ts)
  · rw [if_pos h1]
    by_cases h2 : (ctx.origFor (offsetToLineCol ctx.lineStarts off).1
        (offsetToLineCol ctx.lineStarts off).2 Bias.lub).source ≠ "" ∧
        (ts = "" ∨ (ctx.origFor (offsetToLineCol ctx.lineStarts off).1
          (offsetToLineCol ctx.lineStarts off).2 Bias.lub).source = ts)
    · rw [if_pos h2]
      exact Or.inr rfl
    · rw [if_neg h2]
      exact Or.inr rfl
  · rw [if_neg h1]
    exact Or.inl rfl

/-- C4: when a target source is given, `findMappedEnd` only accepts an end
mapping in that same source; a GREATEST_LOWER_BOUND candidate in a different
source triggers the LEAST_UPPER_BOUND retry at that offset; and whenever
`normalizeRange` rewrites a range, the accepted end mapping's source equals
the start mapping's source. -/
theorem c4_end_source_must_match (ctx : SourceContext) (s e : Int)
    (o : NormalizerOptions) (ts : String) (r : CoverageRange) :
    (∀ em, (findMappedEnd ctx s e o ts).1 = some em → ts ≠ "" →
       em.mapped.source = ts) ∧
    (∀ pb ∈ (findMappedEnd ctx s e o ts).2, ts ≠ "" →
       glbSourceAt ctx pb.offset ≠ "" → glbSourceAt ctx pb.offset ≠ ts →
       pb.biases = [Bias.glb, Bias.lub]) ∧
    (∀ sm em, (findMappedStart ctx r.startOffset r.endOffset o).1 = some sm →
       (findMappedEnd ctx r.startOffset r.endOffset o sm.mapped.source).1 = some em →
       (normalizeRange r ctx o).changed = true →
       em.mapped.source = sm.mapped.source) := by
  refine ⟨?_, ?_, ?_⟩
  · intro em hfe hts
    obtain ⟨-, h⟩ := probeEnd_accept (findMappedEnd_found hfe)
    tauto
  · intro pb hpb hts hsrc hne
    rw [findMappedEnd_biases pb hpb]
    rcases probeEnd_biases_cases ctx ts pb.offset with h | h
    · exfalso
      obtain ⟨-, hacc⟩ := (probeEnd_biases_iff ctx ts pb.offset).mp h
      tauto
    · exact h
  · intro sm em hfs hfe _
    obtain ⟨-, h⟩ := probeEnd_accept (findMappedEnd_found hfe)
    have hsrc := probeStart_some_src (findMappedStart_found hfs)
    tauto

theorem c4_end_source_must_match_witness :
    (⟨⟨"a.ts", 1, 0⟩, 10⟩ : OffsetMapping).mapped.source =
      (⟨⟨"a.ts", 1, 0⟩, 0⟩ : OffsetMapping).mapped.source :=
  (c4_end_source_must_match ctxW 0 10 optsW "a.ts" rW).2.2
    ⟨⟨"a.ts", 1, 0⟩, 0⟩ ⟨⟨"a.ts", 1, 0⟩, 10⟩ (by decide) (by decide) (by decide)

theorem normalizeRange_changed_true {r : CoverageRange} {ctx : SourceContext}
    {o : NormalizerOptions} (h : (normalizeRange r ctx o).changed = true) :
    (normalizeRange r ctx o).range ≠ r ∧
    (normalizeRange r ctx o).range.startOffset <
      (normalizeRange r ctx o).range.endOffset := by
  by_cases hdeg : r.endOffset ≤ r.startOffset
  · rw [normalizeRange_degen hdeg] at h
    simp at h
  · cases hs : (findMappedStart ctx r.startOffset r.endOffset o).1 with
    | none =>
      rw [normalizeRange_noStart hdeg hs] at h
      simp at h
    | some sm =>
      cases he : (findMappedEnd ctx r.startOffset r.endOffset o sm.mapped.source).1 with
      | none =>
        rw [normalizeRange_noEnd hdeg hs he] at h
        simp at h
      | some em =>
        rw [normalizeRange_found hdeg hs he] at h ⊢
        obtain ⟨S, E, g, heq, -⟩ := normalizeFound_eq_finish r ctx sm em
          ((findMappedStart ctx r.startOffset r.endOffset o).2 ++
           (findMappedEnd ctx r.startOffset r.endOffset o sm.mapped.source).2)
        rw [heq] at h ⊢
        obtain ⟨hr, hlt, hne⟩ := finishRange_changed_true h
        rw [hr]
        refine ⟨fun hcontra => ?_, hlt⟩
        rcases hne with h' | h'
        · exact h' (congrArg CoverageRange.startOffset hcontra)
        · exact h' (congrArg CoverageRange.endOffset hcontra)

theorem normalizeRange_changed_iff (r : CoverageRange) (ctx : SourceContext)
    (o : NormalizerOptions) :
    (normalizeRange r ctx o).changed = true ↔ (normalizeRange r ctx o).range ≠ r := by
  constructor
  · intro h
    exact (normalizeRange_changed_true h).1
  · intro h
    by_contra hb
    exact h (normalizeRange_changed_false (by simpa using hb))

theorem list_map_eq_self_iff {α : Type} (f : α → α) (l : List α) :
    l.map f = l ↔ ∀ x ∈ l, f x = x := by
  induction l with
  | nil => simp
  | cons a as ih => simp [ih]

theorem processBlock_changed_iff (ctx : SourceContext) (o : NormalizerOptions)
    (b : FuncBlock) :
    (processBlock ctx o b).2 = true ↔ (processBlock ctx o b).1 ≠ b := by
  cases b with
  | mk ranges =>
    cases ranges with
    | none => simp [processBlock]
    | some rs =>
      simp only [processBlock, List.any_eq_true, ne_eq, FuncBlock.mk.injEq,
        Option.some.injEq, List.map_map]
      rw [list_map_eq_self_iff]
      push_neg
      constructor
      · rintro ⟨x, hx, hxch⟩
        rcases List.mem_map.mp hx with ⟨r, hr, rfl⟩
        exact ⟨r, hr, by simpa using (normalizeRange_changed_iff r ctx o).mp hxch⟩
      · rintro ⟨r, hr, hne⟩
        exact ⟨_, List.mem_map_of_mem _ hr,
          (normalizeRange_changed_iff r ctx o).mpr (by simpa using hne)⟩

theorem processEntry_changed_iff (env : DirEnv) (o : NormalizerOptions)
    (st : PassState) (entry : CoverageEntry) :
    (processEntry env o st entry).2.1 = true ↔ (processEntry env o st entry).1 ≠ entry := by
  cases entry with
  | mk url fns =>
    cases hjs : entryJsPath env ⟨url, fns⟩ with
    | none => simp [processEntry, hjs]
    | some jsPath =>
      cases hc : (resolveContext env st jsPath).1 with
      | none => simp [processEntry, hjs, hc]
      | some ctx =>
        cases fns with
        | none => simp [processEntry, hjs, hc]
        | some blocks =>
          simp only [processEntry, hjs, hc, List.any_eq_true, ne_eq,
            CoverageEntry.mk.injEq, true_and, Option.some.injEq, List.map_map]
          rw [list_map_eq_self_iff]
          push_neg
          constructor
          · rintro ⟨x, hx, hxch⟩
            rcases List.mem_map.mp hx with ⟨b, hb, rfl⟩
            exact ⟨b, hb, by simpa using (processBlock_changed_iff ctx o b).mp hxch⟩
          · rintro ⟨b, hb, hne⟩
            exact ⟨_, List.mem_map_of_mem _ hb,
              (processBlock_changed_iff ctx o b).mpr (by simpa using hne)⟩

theorem processEntries_changed_iff (env : DirEnv) (o : NormalizerOptions) :
    ∀ (st : PassState) (es : List CoverageEntry),
    (processEntries env o st es).2.1 = true ↔ (processEntries env o st es).1 ≠ es := by
  intro st es
  induction es generalizing st with
  | nil => simp [processEntries]
  | cons e rest ih =>
    simp only [processEntries]
    rw [Bool.or_eq_true, processEntry_changed_iff env o st e, ih]
    simp only [ne_eq, List.cons.injEq, not_and]
    tauto

theorem processFileData_changed_iff (env : DirEnv) (o : NormalizerOptions)
    (st : PassState) (data : CoverageFileData) :
    (processFileData env o st data).2.1 = true ↔
    (processFileData env o st data).1 ≠ data := by
  cases data with
  | mk result =>
    cases result with
    | none => simp [processFileData]
    | some es =>
      simp only [processFileData, ne_eq, CoverageFileData.mk.injEq, Option.some.injEq]
      simpa using processEntries_changed_iff env o st es

/-- C8: a range is mutated only when the computed interval differs from the
original and is non-empty (every mutated range stays a valid interval); a
coverage file is rewritten to disk exactly when at least one of its ranges
was mutated. -/
theorem c8_write_iff_mutated (r : CoverageRange) (ctx : SourceContext)
    (o : NormalizerOptions) (env : DirEnv) (st : PassState)
    (data : CoverageFileData) (p : String)
    (rest : List (String × CoverageFileData)) :
    ((normalizeRange r ctx o).changed = false → (normalizeRange r ctx o).range = r) ∧
    ((normalizeRange r ctx o).changed = true →
       (normalizeRange r ctx o).range ≠ r ∧
       (normalizeRange r ctx o).range.startOffset <
         (normalizeRange r ctx o).range.endOffset) ∧
    ((processFileData env o st data).2.1 = true ↔
       (processFileData env o st data).1 ≠ data) ∧
    (processFiles env o st ((p, data) :: rest)).1 =
      (if (processFileData env o st data).2.1 then
        [(p, (processFileData env o st data).1)] else []) ++
      (processFiles env o (processFileData env o st data).2.2 rest).1 := by
  refine ⟨fun h => normalizeRange_changed_false h,
    fun h => normalizeRange_changed_true h,
    processFileData_changed_iff env o st data, rfl⟩

theorem c8_write_iff_mutated_witness :
    (normalizeRange rDegen ctxW optsW).range = rDegen :=
  (c8_write_iff_mutated rDegen ctxW optsW envW initialPassState dataW "cov/a.json" []).1
    (by decide)

theorem readsInv_extend {st : PassState} {jsPath : String}
    (h : readsInv st) (hc : cacheGet st.cache jsPath = none)
    (v : Option SourceContext) :
    readsInv ⟨(jsPath, v) :: st.cache, st.mapReads ++ [jsPath]⟩ := by
  have hnot : jsPath ∉ st.mapReads := fun hm => (h.2 _ hm) hc
  refine ⟨?_, ?_⟩
  · simp [List.nodup_append, h.1, hnot]
  · intro q hq
    rcases List.mem_append.mp hq with hq | hq
    · show cacheGet ((jsPath, v) :: st.cache) q ≠ none
      by_cases he : jsPath = q
      · simp [cacheGet, he]
      · simpa [cacheGet, he] using h.2 q hq
    · have hq2 : q = jsPath := by simpa using hq
      subst hq2
      simp [cacheGet]

theorem resolveContext_readsInv {env : DirEnv} {st : PassState} {jsPath : String}
    (h : readsInv st) : readsInv (resolveContext env st jsPath).2 := by
  unfold resolveContext
  cases hc : cacheGet st.cache jsPath with
  | some c => exact h
  | none =>
    cases hr : env.readSourceMap jsPath with
    | none => exact readsInv_extend h hc none
    | some payload => exact readsInv_extend h hc (some (env.mkContext jsPath payload))

theorem processEntry_readsInv (env : DirEnv) (o : NormalizerOptions)
    (st : PassState) (entry : CoverageEntry) (h : readsInv st) :
    readsInv (processEntry env o st entry).2.2 := by
  cases hjs : entryJsPath env entry with
  | none =>
    simp only [processEntry, hjs]
    exact h
  | some jsPath =>
    cases hc : (resolveContext env st jsPath).1 with
    | none =>
      simp only [processEntry, hjs, hc]
      exact resolveContext_readsInv h
    | some ctx =>
      cases hf : entry.functions with
      | none =>
        simp only [processEntry, hjs, hc, hf]
        exact resolveContext_readsInv h
      | some blocks =>
        simp only [processEntry, hjs, hc, hf]
        exact resolveContext_readsInv h

theorem processEntries_readsInv (env : DirEnv) (o : NormalizerOptions) :
    ∀ (st : PassState) (es : List CoverageEntry), readsInv st →
    readsInv (processEntries env o st es).2.2 := by
  intro st es
  induction es generalizing st with
  | nil => intro h; exact h
  | cons e rest ih =>
    intro h
    simp only [processEntries]
    exact ih _ (processEntry_readsInv env o st e h)

theorem processFileData_readsInv (env : DirEnv) (o : NormalizerOptions)
    (st : PassState) (data : CoverageFileData) (h : readsInv st) :
    readsInv (processFileData env o st data).2.2 := by
  cases hd : data.result with
  | none =>
    simp only [processFileData, hd]
    exact h
  | some es =>
    simp only [processFileData, hd]
    exact processEntries_readsInv env o st es h

theorem processFiles_readsInv (env : DirEnv) (o : NormalizerOptions) :
    ∀ (st : PassState) (files : List (String × CoverageFileData)), readsInv st →
    readsInv (processFiles env o st files).2 := by
  intro st files
  induction files generalizing st with
  | nil => intro h; exact h
  | cons f rest ih =>
    intro h
    simp only [processFiles]
    exact ih _ (processFileData_readsInv env o st f.2 h)

theorem normalizeCoverageDir_reads_nodup (env : DirEnv) (o : NormalizerOptions)
    (root : Option FsForest) : (normalizeCoverageDir env o root).2.Nodup := by
  cases root with
  | none => simp [normalizeCoverageDir]
  | some children =>
    unfold normalizeCoverageDir
    by_cases hj : collectJsonForest o.coverageDir children = []
    · simp [hj]
    · simp only [hj, if_false]
      exact (processFiles_readsInv env o initialPassState _
        ⟨List.nodup_nil, by simp [initialPassState]⟩).1

/-- C7: a coverage entry whose generated file carries no discoverable source
map is left completely unchanged and flagged unchanged (no error), and the
per-file map lookup result (including the no-map case) is cached so that
`readSourceMap` is consulted at most once per generated file in a pass. -/
theorem c7_no_map_entry_untouched (env : DirEnv) (o : NormalizerOptions)
    (st : PassState) (entry : CoverageEntry) (root : Option FsForest) :
    (∀ jsPath, cacheConsistent env st.cache →
       entryJsPath env entry = some jsPath →
       env.readSourceMap jsPath = none →
       (processEntry env o st entry).1 = entry ∧
       (processEntry env o st entry).2.1 = false) ∧
    (∀ p, (normalizeCoverageDir env o root).2.count p ≤ 1) := by
  constructor
  · intro jsPath hcons hjs hmap
    have hctx : (resolveContext env st jsPath).1 = none := by
      unfold resolveContext
      cases hc : cacheGet st.cache jsPath with
      | some c =>
        have hc2 := hcons jsPath c hc
        rw [hmap] at hc2
        simpa using hc2
      | none => simp [hmap]
    simp [processEntry, hjs, hctx]
  · intro p
    exact List.nodup_iff_count_le_one.mp
      (normalizeCoverageDir_reads_nodup env o root) p

theorem c7_no_map_entry_untouched_witness :
    (processEntry envW optsW initialPassState entryW).1 = entryW ∧
    (processEntry envW optsW initialPassState entryW).2.1 = false :=
  (c7_no_map_entry_untouched envW optsW initialPassState entryW none).1 "/x.js"
    (fun _ _ h => nomatch h) (by decide) rfl

theorem scanWith_log_offsets (probe : Int → Option MappedPosition × List Bias) :
    ∀ l : List Int,
    ((scanWith probe l).2).map ProbeLog.offset =
      l.take ((scanWith probe l).2).length := by
  intro l
  induction l with
  | nil => rfl
  | cons off rest ih =>
    unfold scanWith
    cases hp : (probe off).1 with
    | some m => simp [hp]
    | none => simp [hp, ih]

theorem scanWith_log_length (probe : Int → Option MappedPosition × List Bias)
    (l : List Int) : ((scanWith probe l).2).length ≤ l.length := by
  have h := congrArg List.length (scanWith_log_offsets probe l)
  rw [List.length_map, List.length_take] at h
  omega

theorem scanWith_log_mem {probe : Int → Option MappedPosition × List Bias}
    {l : List Int} {pb : ProbeLog} (h : pb ∈ (scanWith probe l).2) :
    pb.offset ∈ l := by
  have hm : pb.offset ∈ ((scanWith probe l).2).map ProbeLog.offset :=
    List.mem_map_of_mem _ h
  rw [scanWith_log_offsets] at hm
  exact List.take_subset _ _ hm

theorem ascOffsets_mem {s limit x : Int} (h : x ∈ ascOffsets s limit) :
    s + 1 ≤ x ∧ x ≤ limit := by
  unfold ascOffsets at h
  rcases List.mem_map.mp h with ⟨i, hi, rfl⟩
  rw [List.mem_range] at hi
  have hi2 : (i : Int) < limit - s := by
    have := Int.lt_toNat.mp hi
    omega
  omega

theorem descOffsets_mem {e limit x : Int} (h : x ∈ descOffsets e limit) :
    limit ≤ x ∧ x ≤ e - 1 := by
  unfold descOffsets at h
  rcases List.mem_map.mp h with ⟨i, hi, rfl⟩
  rw [List.mem_range] at hi
  have hi2 : (i : Int) < e - limit := by
    have := Int.lt_toNat.mp hi
    omega
  omega

theorem ascOffsets_nil {s limit : Int} (h : limit ≤ s) : ascOffsets s limit = [] := by
  unfold ascOffsets
  have h0 : (limit - s).toNat = 0 := by omega
  rw [h0]
  rfl

theorem descOffsets_nil {e limit : Int} (h : e ≤ limit) : descOffsets e limit = [] := by
  unfold descOffsets
  have h0 : (e - limit).toNat = 0 := by omega
  rw [h0]
  rfl

theorem ascOffsets_length (s limit : Int) :
    (ascOffsets s limit).length = (limit - s).toNat := by
  unfold ascOffsets
  rw [List.length_map, List.length_range]

theorem descOffsets_length (e limit : Int) :
    (descOffsets e limit).length = (e - limit).toNat := by
  unfold descOffsets
  rw [List.length_map, List.length_range]

theorem take_ascOffsets {s limit : Int} {n : Nat}
    (h : n ≤ (ascOffsets s limit).length) :
    (ascOffsets s limit).take n = (List.range n).map (fun i : Nat => s + 1 + (i : Int)) := by
  rw [ascOffsets_length] at h
  unfold ascOffsets
  rw [← List.map_take, List.take_range, min_eq_left h]

theorem take_descOffsets {e limit : Int} {n : Nat}
    (h : n ≤ (descOffsets e limit).length) :
    (descOffsets e limit).take n = (List.range n).map (fun i : Nat => e - 1 - (i : Int)) := by
  rw [descOffsets_length] at h
  unfold descOffsets
  rw [← List.map_take, List.take_range, min_eq_left h]

theorem range_map_cons_asc (s : Int) (n : Nat) :
    s :: (List.range n).map (fun i : Nat => s + 1 + (i : Int)) =
    (List.range (n + 1)).map (fun i : Nat => s + (i : Int)) := by
  rw [List.range_succ_eq_map]
  simp only [List.map_cons, List.map_map, Nat.cast_zero, add_zero]
  refine congrArg _ (List.map_congr_left fun i _ => ?_)
  simp only [Function.comp_apply]
  push_cast
  ring

theorem range_map_cons_desc (e : Int) (n : Nat) :
    e :: (List.range n).map (fun i : Nat => e - 1 - (i : Int)) =
    (List.range (n + 1)).map (fun i : Nat => e - (i : Int)) := by
  rw [List.range_succ_eq_map]
  simp only [List.map_cons, List.map_map, Nat.cast_zero, sub_zero]
  refine congrArg _ (List.map_congr_left fun i _ => ?_)
  simp only [Function.comp_apply]
  push_cast
  ring

theorem findMappedStart_offsets (ctx : SourceContext) (s e : Int)
    (o : NormalizerOptions) :
    ((findMappedStart ctx s e o).2).map ProbeLog.offset =
      (List.range ((findMappedStart ctx s e o).2).length).map (fun i : Nat => s + (i : Int)) := by
  unfold findMappedStart
  cases hd : (probeStart ctx s).1 with
  | some m => simp [hd, List.range_succ]
  | none =>
    simp only [hd, List.map_cons, List.length_cons]
    rw [scanWith_log_offsets, take_ascOffsets (scanWith_log_length _ _),
      range_map_cons_asc]

theorem findMappedEnd_offsets (ctx : SourceContext) (s e : Int)
    (o : NormalizerOptions) (ts : String) :
    ((findMappedEnd ctx s e o ts).2).map ProbeLog.offset =
      (List.range ((findMappedEnd ctx s e o ts).2).length).map (fun i : Nat => e - (i : Int)) := by
  unfold findMappedEnd
  cases hd : (probeEnd ctx ts e).1 with
  | some m => simp [hd, List.range_succ]
  | none =>
    simp only [hd, List.map_cons, List.length_cons]
    rw [scanWith_log_offsets, take_descOffsets (scanWith_log_length _ _),
      range_map_cons_desc]

/-- C3: the lookup order is asymmetric exactly as specified: range starts are
probed at consecutive offsets `startOffset, startOffset+1, …` (forward scan),
each offset with LEAST_UPPER_BOUND first and GREATEST_LOWER_BOUND exactly when
the first bias found no source; range ends are probed at `endOffset,
endOffset-1, …` (backward scan), each offset with GREATEST_LOWER_BOUND first
and LEAST_UPPER_BOUND exactly when the first lookup was not acceptable. -/
theorem c3_asymmetric_lookup_order (ctx : SourceContext) (s e : Int)
    (o : NormalizerOptions) (ts : String) :
    (((findMappedStart ctx s e o).2).map ProbeLog.offset =
       (List.range ((findMappedStart ctx s e o).2).length).map
         (fun i : Nat => s + (i : Int))) ∧
    (∀ pb ∈ (findMappedStart ctx s e o).2,
       pb.biases = [Bias.lub] ∨ pb.biases = [Bias.lub, Bias.glb]) ∧
    (∀ pb ∈ (findMappedStart ctx s e o).2,
       (pb.biases = [Bias.lub] ↔ lubSourceAt ctx pb.offset ≠ "")) ∧
    (((findMappedEnd ctx s e o ts).2).map ProbeLog.offset =
       (List.range ((findMappedEnd ctx s e o ts).2).length).map
         (fun i : Nat => e - (i : Int))) ∧
    (∀ pb ∈ (findMappedEnd ctx s e o ts).2,
       pb.biases = [Bias.glb] ∨ pb.biases = [Bias.glb, Bias.lub]) ∧
    (∀ pb ∈ (findMappedEnd ctx s e o ts).2,
       (pb.biases = [Bias.glb] ↔ endDirectAccept ctx ts pb.offset)) := by
  refine ⟨findMappedStart_offsets ctx s e o, ?_, ?_,
    findMappedEnd_offsets ctx s e o ts, ?_, ?_⟩
  · intro pb hpb
    rw [findMappedStart_biases pb hpb]
    exact probeStart_biases_cases ctx pb.offset
  · intro pb hpb
    rw [findMappedStart_biases pb hpb]
    exact probeStart_biases_iff ctx pb.offset
  · intro pb hpb
    rw [findMappedEnd_biases pb hpb]
    exact probeEnd_biases_cases ctx ts pb.offset
  · intro pb hpb
    rw [findMappedEnd_biases pb hpb]
    exact probeEnd_biases_iff ctx ts pb.offset

theorem c3_asymmetric_lookup_order_witness :
    (⟨0, [Bias.lub, Bias.glb]⟩ : ProbeLog).biases = [Bias.lub] ∨
    (⟨0, [Bias.lub, Bias.glb]⟩ : ProbeLog).biases = [Bias.lub, Bias.glb] :=
  (c3_asymmetric_lookup_order ctxNoMap 0 3 optsW "a.ts").2.1
    ⟨0, [Bias.lub, Bias.glb]⟩ (by decide)

/-- C5: the scan fallback probes at most `min(maxScanBudget, endOffset -
startOffset)` offsets beyond the direct lookup, never probes outside
`[startOffset, endOffset]`; with a budget of 0 only the direct bias lookups at
the two endpoints run; and the default budget resolved by
`normalizeV8Coverage` is 20000. -/
theorem c5_scan_budget_bounded (ctx : SourceContext) (s e : Int)
    (o : NormalizerOptions) (ts : String) :
    (s ≤ e → (((findMappedStart ctx s e o).2).drop 1).length ≤
       (min o.maxScan (e - s)).toNat) ∧
    (s ≤ e → ∀ pb ∈ (findMappedStart ctx s e o).2,
       s ≤ pb.offset ∧ pb.offset ≤ e) ∧
    (s ≤ e → (((findMappedEnd ctx s e o ts).2).drop 1).length ≤
       (min o.maxScan (e - s)).toNat) ∧
    (s ≤ e → ∀ pb ∈ (findMappedEnd ctx s e o ts).2,
       s ≤ pb.offset ∧ pb.offset ≤ e) ∧
    (o.maxScan = 0 →
       (findMappedStart ctx s e o).2 = [⟨s, (probeStart ctx s).2⟩] ∧
       (findMappedEnd ctx s e o ts).2 = [⟨e, (probeEnd ctx ts e).2⟩]) ∧
    normalizeV8CoverageMaxScan none = 20000 := by
  refine ⟨?_, ?_, ?_, ?_, ?_, rfl⟩
  · intro hse
    unfold findMappedStart
    cases hd : (probeStart ctx s).1 with
    | some m => simp [hd]
    | none =>
      simp only [hd, List.drop_succ_cons, List.drop_zero]
      have h1 := scanWith_log_length (probeStart ctx)
        (ascOffsets s (min e (s + min o.maxScan (max 0 (e - s)))))
      rw [ascOffsets_length] at h1
      omega
  · intro hse pb hpb
    unfold findMappedStart at hpb
    cases hd : (probeStart ctx s).1 with
    | some m =>
      simp only [hd, List.mem_singleton] at hpb
      subst hpb
      exact ⟨le_refl s, hse⟩
    | none =>
      simp only [hd, List.mem_cons] at hpb
      rcases hpb with hpb | hpb
      · subst hpb
        exact ⟨le_refl s, hse⟩
      · have h1 := ascOffsets_mem (scanWith_log_mem hpb)
        have h2 : min e (s + min o.maxScan (max 0 (e - s))) ≤ e := min_le_left _ _
        omega
  · intro hse
    unfold findMappedEnd
    cases hd : (probeEnd ctx ts e).1 with
    | some m => simp [hd]
    | none =>
      simp only [hd, List.drop_succ_cons, List.drop_zero]
      have h1 := scanWith_log_length (probeEnd ctx ts)
        (descOffsets e (max s (e - min o.maxScan (max 0 (e - s)))))
      rw [descOffsets_length] at h1
      omega
  · intro hse pb hpb
    unfold findMappedEnd at hpb
    cases hd : (probeEnd ctx ts e).1 with
    | some m =>
      simp only [hd, List.mem_singleton] at hpb
      subst hpb
      exact ⟨hse, le_refl e⟩
    | none =>
      simp only [hd, List.mem_cons] at hpb
      rcases hpb with hpb | hpb
      · subst hpb
        exact ⟨hse, le_refl e⟩
      · have h1 := descOffsets_mem (scanWith_log_mem hpb)
        have h2 : s ≤ max s (e - min o.maxScan (max 0 (e - s))) := le_max_left _ _
        omega
  · intro h0
    constructor
    · have hasc : ascOffsets s (min e (s + min o.maxScan (max 0 (e - s)))) = [] :=
        ascOffsets_nil (by omega)
      unfold findMappedStart
      cases hd : (probeStart ctx s).1 with
      | some m => simp [hd]
      | none => simp [hd, hasc, scanWith]
    · have hdesc : descOffsets e (max s (e - min o.maxScan (max 0 (e - s)))) = [] :=
        descOffsets_nil (by omega)
      unfold findMappedEnd
      cases hd : (probeEnd ctx ts e).1 with
      | some m => simp [hd]
      | none => simp [hd, hdesc, scanWith]

theorem c5_scan_budget_bounded_witness :
    ((((findMappedStart ctxNoMap 0 10 optsZero).2).drop 1).length ≤
      (min optsZero.maxScan (10 - 0)).toNat) ∧
    (findMappedStart ctxNoMap 0 10 optsZero).2 =
      [⟨0, (probeStart ctxNoMap 0).2⟩] :=
  ⟨(c5_scan_budget_bounded ctxNoMap 0 10 optsZero "a.ts").1 (by decide),
   ((c5_scan_budget_bounded ctxNoMap 0 10 optsZero "a.ts").2.2.2.2.1 rfl).1⟩

theorem findMappedStart_direct {ctx : SourceContext} {s : Int} {m : MappedPosition}
    (e : Int) (o : NormalizerOptions) (h : (probeStart ctx s).1 = some m) :
    (findMappedStart ctx s e o).1 = some ⟨m, s⟩ := by
  unfold findMappedStart
  simp [h]

theorem findMappedEnd_direct {ctx : SourceContext} {e : Int} {ts : String}
    {m : MappedPosition} (s : Int) (o : NormalizerOptions)
    (h : (probeEnd ctx ts e).1 = some m) :
    (findMappedEnd ctx s e o ts).1 = some ⟨m, e⟩ := by
  unfold findMappedEnd
  simp [h]

theorem normalizeFound_range_cases {r : CoverageRange} {ctx : SourceContext}
    {sm em : OffsetMapping} {p : List ProbeLog}
    (hch : (normalizeFound r ctx sm em p).changed = true) :
    (normalizeFound r ctx sm em p).range.count = r.count ∧
    (normalizeFound r ctx sm em p).range.startOffset <
      (normalizeFound r ctx sm em p).range.endOffset ∧
    ((r.count = 0 ∧ widenTruthy ctx sm em = true ∧
        (normalizeFound r ctx sm em p).range.startOffset =
          min sm.offset (expandedStartOf ctx sm) ∧
        (normalizeFound r ctx sm em p).range.endOffset =
          max em.offset (expandedEndOf ctx sm em)) ∨
      ((¬ r.count = 0 ∨ widenTruthy ctx sm em = false) ∧
        (normalizeFound r ctx sm em p).range.startOffset = sm.offset ∧
        (normalizeFound r ctx sm em p).range.endOffset = em.offset)) := by
  unfold normalizeFound at hch ⊢
  by_cases hc : r.count = 0
  · rw [if_pos hc] at hch ⊢
    by_cases ht : widenTruthy ctx sm em = true
    · rw [if_pos ht] at hch ⊢
      obtain ⟨hr, hlt, -⟩ := finishRange_changed_true hch
      rw [hr]
      exact ⟨rfl, hlt, Or.inl ⟨hc, ht, rfl, rfl⟩⟩
    · rw [if_neg ht] at hch ⊢
      obtain ⟨hr, hlt, -⟩ := finishRange_changed_true hch
      rw [hr]
      exact ⟨rfl, hlt, Or.inr ⟨Or.inr (by simpa using ht), rfl, rfl⟩⟩
  · rw [if_neg hc] at hch ⊢
    obtain ⟨hr, hlt, -⟩ := finishRange_changed_true hch
    rw [hr]
    exact ⟨rfl, hlt, Or.inr ⟨Or.inl hc, rfl, rfl⟩⟩

theorem normalizeFound_fixed {rng : CoverageRange} {ctx : SourceContext}
    {sm2 em2 : OffsetMapping} {p : List ProbeLog}
    (hS : sm2.offset = rng.startOffset) (hE : em2.offset = rng.endOffset)
    (hlt : ¬ rng.endOffset ≤ rng.startOffset)
    (hwid : rng.count = 0 → widenTruthy ctx sm2 em2 = true →
      min rng.startOffset (expandedStartOf ctx sm2) = rng.startOffset ∧
      max rng.endOffset (expandedEndOf ctx sm2 em2) = rng.endOffset) :
    (normalizeFound rng ctx sm2 em2 p).range = rng := by
  unfold normalizeFound
  rw [hS, hE]
  by_cases hc : rng.count = 0
  · rw [if_pos hc]
    by_cases ht : widenTruthy ctx sm2 em2 = true
    · rw [if_pos ht]
      obtain ⟨hmin, hmax⟩ := hwid hc ht
      rw [hmin, hmax, finishRange_noop hlt]
    · rw [if_neg ht, finishRange_noop hlt]
  · rw [if_neg hc, finishRange_noop hlt]

/-- C2: normalization is idempotent on a range lying fully inside a single
mapped statement.  The side condition formalizes "fully inside a single mapped
statement": for a zero-count range whose start and end mappings were found,
the direct probes at the two normalized endpoints still resolve to the same
original source and the same original lines.  Under it, applying
`normalizeRange` to an already-normalized range leaves the offsets unchanged,
i.e. `normalize(normalize(X)) = normalize(X)`. -/
theorem c2_idempotent (r : CoverageRange) (ctx : SourceContext)
    (o : NormalizerOptions)
    (H : r.count = 0 → ∀ sm em,
      (findMappedStart ctx r.startOffset r.endOffset o).1 = some sm →
      (findMappedEnd ctx r.startOffset r.endOffset o sm.mapped.source).1 = some em →
      (∃ m, (probeStart ctx (normalizeRange r ctx o).range.startOffset).1 = some m ∧
        m.source = sm.mapped.source ∧ m.line = sm.mapped.line) ∧
      (∃ m, (probeEnd ctx sm.mapped.source
          (normalizeRange r ctx o).range.endOffset).1 = some m ∧
        m.line = em.mapped.line)) :
    (normalizeRange (normalizeRange r ctx o).range ctx o).range =
      (normalizeRange r ctx o).range := by
  by_cases hch : (normalizeRange r ctx o).changed = true
  · by_cases hdeg : r.endOffset ≤ r.startOffset
    · rw [normalizeRange_degen hdeg] at hch
      simp at hch
    · cases hs : (findMappedStart ctx r.startOffset r.endOffset o).1 with
      | none =>
        rw [normalizeRange_noStart hdeg hs] at hch
        simp at hch
      | some sm =>
        cases he : (findMappedEnd ctx r.startOffset r.endOffset o sm.mapped.source).1 with
        | none =>
          rw [normalizeRange_noEnd hdeg hs he] at hch
          simp at hch
        | some em =>
          have hfound := normalizeRange_found hdeg hs he
          set P := (findMappedStart ctx r.startOffset r.endOffset o).2 ++
            (findMappedEnd ctx r.startOffset r.endOffset o sm.mapped.source).2 with hP
          rw [hfound] at hch
          obtain ⟨hcnt, hlt, hcases⟩ := normalizeFound_range_cases hch
          rw [hfound]
          set rng := (normalizeFound r ctx sm em P).range with hrngdef
          have hlt2 : ¬ rng.endOffset ≤ rng.startOffset := by omega
          rcases hcases with ⟨hc0, hT, hrs, hre⟩ | ⟨hside, hrs, hre⟩
          · -- zero-count range, widened: use the single-statement hypothesis
            obtain ⟨⟨m1, hm1, hm1src, hm1line⟩, ⟨m2, hm2, hm2line⟩⟩ :=
              H hc0 sm em hs he
            rw [hfound, ← hrngdef] at hm1 hm2
            rw [← hm1src] at hm2
            have hfs2 := findMappedStart_direct (e := rng.endOffset) (o := o) hm1
            have hfe2 := findMappedEnd_direct (s := rng.startOffset) (o := o) hm2
            rw [normalizeRange_found hlt2 hfs2 hfe2]
            refine normalizeFound_fixed rfl rfl hlt2 (fun _ _ => ?_)
            have heS : expandedStartOf ctx
                (⟨m1, rng.startOffset⟩ : OffsetMapping) = expandedStartOf ctx sm := by
              simp only [expandedStartOf, genStartOf]
              rw [hm1src, hm1line]
            have heE : expandedEndOf ctx (⟨m1, rng.startOffset⟩ : OffsetMapping)
                (⟨m2, rng.endOffset⟩ : OffsetMapping) = expandedEndOf ctx sm em := by
              simp only [expandedEndOf, genEndOf]
              rw [hm1src, hm2line]
            rw [heS, heE, hrs, hre]
            constructor
            · omega
            · omega
          · -- covered range, or widening guard false: direct re-probing suffices
            have hps := findMappedStart_found hs
            have hpe := findMappedEnd_found he
            rw [← hrs] at hps
            rw [← hre] at hpe
            have hfs2 := findMappedStart_direct (e := rng.endOffset) (o := o) hps
            have hfe2 := findMappedEnd_direct (s := rng.startOffset) (o := o) hpe
            rw [normalizeRange_found hlt2 hfs2 hfe2]
            refine normalizeFound_fixed rfl rfl hlt2 (fun hc ht => ?_)
            rcases hside with hside | hside
            · exact absurd (hcnt.symm.trans hc) hside
            · have ht2 : widenTruthy ctx sm em = true := ht
              rw [hside] at ht2
              cases ht2
  · have hb : (normalizeRange r ctx o).changed = false := by
      cases hb2 : (normalizeRange r ctx o).changed
      · rfl
      · exact absurd hb2 hch
    rw [normalizeRange_changed_false hb]
    exact normalizeRange_changed_false hb

theorem c2_idempotent_witness :
    (normalizeRange (normalizeRange rW ctxW optsW).range ctxW optsW).range =
      (normalizeRange rW ctxW optsW).range := by
  refine c2_idempotent rW ctxW optsW ?_
  intro _ sm em hs he
  have hsm : sm = ⟨⟨"a.ts", 1, 0⟩, 0⟩ :=
    (Option.some.inj ((show (findMappedStart ctxW rW.startOffset rW.endOffset optsW).1 =
      some ⟨⟨"a.ts", 1, 0⟩, 0⟩ by decide).symm.trans hs)).symm
  subst hsm
  have hem : em = ⟨⟨"a.ts", 1, 0⟩, 10⟩ :=
    (Option.some.inj ((show (findMappedEnd ctxW rW.startOffset rW.endOffset optsW
      "a.ts").1 = some ⟨⟨"a.ts", 1, 0⟩, 10⟩ by decide).symm.trans he)).symm
  subst hem
  exact ⟨⟨⟨"a.ts", 1, 0⟩, by decide, rfl, rfl⟩, ⟨⟨"a.ts", 1, 0⟩, by decide, rfl⟩⟩

theorem c1_zero_count_widening_witness :
    (normalizeRange rW ctxW optsW).range.startOffset ≤
      (⟨⟨"a.ts", 1, 0⟩, 0⟩ : OffsetMapping).offset ∧
    (⟨⟨"a.ts", 1, 0⟩, 10⟩ : OffsetMapping).offset ≤
      (normalizeRange rW ctxW optsW).range.endOffset :=
  c1_zero_count_widening rW ctxW optsW ⟨⟨"a.ts", 1, 0⟩, 0⟩ ⟨⟨"a.ts", 1, 0⟩, 10⟩
    (by decide) (by decide) (by decide) (by decide)

end NormalizeV8
